import Mathlib

/-!
Verification development for the client side of an asynchronous
privacy-preserving SSO protocol (a Pointcheval–Sanders style blind issuance
client, `src/client.py`).

The group/pairing engine (petlib bilinear group), the helper module holding
the group order `o` and the Fiat–Shamir challenge function `to_challenge`,
the public-key record and the request record are external to `src/`; they
are modelled from the spec as follows.

Modelled from the spec (GroupEngine boundary, §6): group-1, group-2 and
target-group elements are represented by their discrete logarithms over a
scalar field of order `o`, i.e. by elements of `ZMod o`; the generators
`g1`, `g2` are arbitrary public elements, scalar multiplication of a group
element by an integer scalar is multiplication in `ZMod o` after reducing
the scalar, group addition is addition in `ZMod o`, the group identity is
`0`, and the bilinear pairing sends a pair of exponents to their product.
Scalars handled by the client (petlib `Bn` values) are arbitrary-precision
integers, modelled as `ℤ`; they are reduced into the field only when a
group element is scaled by them, which is exactly petlib's behaviour.

Randomness (`o.random()`) is modelled by explicit parameters: the blinding
scalar `t` and a stream `rand : ℕ → ℤ` of proof randoms, quantified over
in the theorems, so every statement holds for all values the sampler can
return.
-/

namespace SSO

/-- Big-endian integer interpretation of a byte string, as petlib's
`Bn.from_binary` computes it (no reduction modulo anything). -/
def fromBinary (bytes : List ℕ) : ℕ :=
  bytes.foldl (fun acc b => acc * 256 + b) 0

/-- Modelled from the spec: a digest function (the fixed cryptographically
strong hash, `sha256` in the code) is well formed when it always returns a
fixed-size 32-byte string. -/
def GoodDigest {α : Type} (digest : α → List ℕ) : Prop :=
  ∀ a, (digest a).length = 32 ∧ ∀ b ∈ digest a, b < 256

/-- The scalar the client derives from a raw attribute byte string:
`Bn.from_binary(sha256(attr).digest())`, exactly as written at both use
sites (`__hash_hidden_attributes` line 51 and `verify` line 124). -/
def attrHash {α : Type} (digest : α → List ℕ) (a : α) : ℕ :=
  fromBinary (digest a)

/-- Modelled from the spec: the issuer public key `{g1, g2, X, Yg1[], Yg2[]}`
(the `pubKey` module is not under `src/`).  `X` lives in group 2 (it is
accumulated with `Yg2` terms in `verify`).  The spec requires the generator
sequences to cover every attribute slot, so they are modelled as total
sequences. -/
structure PubKey (o : ℕ) where
  g1 : ZMod o
  g2 : ZMod o
  X : ZMod o
  Yg1 : ℕ → ZMod o
  Yg2 : ℕ → ZMod o

/-- Modelled from the spec: the bilinear pairing, in the exponent
representation: `e(g1^a, g2^b) = e(g1, g2)^(a*b)`. -/
def pair {o : ℕ} (a b : ZMod o) : ZMod o := a * b

/-- The group-1 identity element in the exponent representation. -/
def idG1 (o : ℕ) : ZMod o := 0

/-- The client object: the issuer public key received at construction and
the optional blinding scalar `self.__t` (absent until `request_id` runs). -/
structure Client (o : ℕ) where
  idpPk : PubKey o
  t : Option ℤ

/-- `Client.__init__`: store the public key, no blinding scalar yet. -/
def mkClient {o : ℕ} (pk : PubKey o) : Client o := ⟨pk, none⟩

/-- `Client.__hash_hidden_attributes`: walk the attribute vector and hash
the raw bytes of each hidden attribute, in order of appearance. -/
def hashHiddenAttributes {α : Type} (digest : α → List ℕ) :
    List (α × Bool) → List ℕ
  | [] => []
  | a :: rest =>
      if a.2 then attrHash digest a.1 :: hashHiddenAttributes digest rest
      else hashHiddenAttributes digest rest

/-- The loop of `Client.__create_commitment` (lines 68–73): `i` enumerates
all attributes, `j` counts hidden ones, and for each hidden attribute the
term `Yg1[i] * hashed_attributes[j]` is accumulated.  An out-of-range list
access raises, modelled by `none`. -/
def commitLoop {o : ℕ} {α : Type} (pk : PubKey o) (hashed : List ℕ) :
    List (α × Bool) → ℕ → ℕ → ZMod o → Option (ZMod o)
  | [], _, _, C => some C
  | a :: rest, i, j, C =>
      if a.2 then
        match hashed[j]? with
        | some h => commitLoop pk hashed rest (i + 1) (j + 1)
            (C + pk.Yg1 i * (h : ZMod o))
        | none => none
      else commitLoop pk hashed rest (i + 1) j C

/-- `Client.__create_commitment`: start from `g1 * t` and fold in the
hidden-attribute terms.  The sampled `t` is a parameter; `request_id`
stores it in the client state. -/
def createCommitment {o : ℕ} {α : Type} (pk : PubKey o) (hashed : List ℕ)
    (attributes : List (α × Bool)) (t : ℤ) : Option (ZMod o) :=
  commitLoop pk hashed attributes 0 0 (pk.g1 * (t : ZMod o))

/-- The V-loop of `Client.create_zkp` (lines 89–92): for each hidden
attribute at global index `i`, append a fresh random to the `randomness`
list and read `randomness[i + 1]` — which raises `IndexError` (here
`none`) when that index is out of range.  The fresh sample appended when
the list has length `k` is `rand k`. -/
def zkpVLoop {o : ℕ} {α : Type} (pk : PubKey o) (rand : ℕ → ℤ) :
    List (α × Bool) → ℕ → List ℤ → ZMod o → Option (List ℤ × ZMod o)
  | [], _, randomness, V => some (randomness, V)
  | a :: rest, i, randomness, V =>
      if a.2 then
        let randomness2 := randomness ++ [rand randomness.length]
        match randomness2[i + 1]? with
        | some rv => zkpVLoop pk rand rest (i + 1) randomness2
            (V + pk.Yg1 i * (rv : ZMod o))
        | none => none
      else zkpVLoop pk rand rest (i + 1) randomness V

/-- The response loop of `Client.create_zkp` (lines 97–98): for the `i`-th
hashed hidden attribute, append `randomness[i + 1] - hashed_i * c` — a
plain integer subtraction, with no reduction modulo the group order. -/
def rLoop (c : ℤ) (randomness : List ℤ) : List ℕ → ℕ → Option (List ℤ)
  | [], _ => some []
  | h :: rest, i =>
      match randomness[i + 1]? with
      | some rv =>
          match rLoop c randomness rest (i + 1) with
          | some tail => some ((rv - (h : ℤ) * c) :: tail)
          | none => none
      | none => none

/-- `Client.create_zkp`: build `V` from fresh randoms, derive the
Fiat–Shamir challenge `c = chal C V data` (the external
`helper.to_challenge`, modelled from the spec as a function of the
transcript), and compute the responses `r`.  `t` is the stored blinding
scalar. -/
def createZkp {o : ℕ} {α β : Type} (pk : PubKey o) (rand : ℕ → ℤ)
    (chal : ZMod o → ZMod o → β → ℤ) (t : ℤ) (attributes : List (α × Bool))
    (hashed : List ℕ) (C : ZMod o) (data : β) :
    Option (ZMod o × ℤ × List ℤ) :=
  match zkpVLoop pk rand attributes 0 [rand 0] (pk.g1 * (rand 0 : ZMod o)) with
  | none => none
  | some (randomness, V) =>
      let c := chal C V data
      match randomness[0]? with
      | none => none
      | some r0 =>
          match rLoop c randomness hashed 0 with
          | some rtail => some (V, c, (r0 - t * c) :: rtail)
          | none => none

/-- Modelled from the spec: the outbound request record `{C, c, r,
attributes}` (the `request` module is not under `src/`); hidden positions
carry an empty placeholder, modelled by `none`. -/
structure Request (o : ℕ) (α : Type) where
  C : ZMod o
  c : ℤ
  r : List ℤ
  attributes : List (Option α)

/-- `Client.request_id`: hash the hidden attributes, build the commitment
(sampling `t`, which is stored in the client state), build the proof, and
assemble the request with plaintext for plain attributes and a placeholder
for hidden ones.  Any index error inside propagates as `none`. -/
def requestId {o : ℕ} {α β : Type} (pk : PubKey o) (digest : α → List ℕ)
    (chal : ZMod o → ZMod o → β → ℤ) (t : ℤ) (rand : ℕ → ℤ)
    (attributes : List (α × Bool)) (data : β) :
    Option (Request o α × Client o) :=
  let hashed := hashHiddenAttributes digest attributes
  match createCommitment pk hashed attributes t with
  | none => none
  | some C =>
      match createZkp pk rand chal t attributes hashed C data with
      | none => none
      | some (_, c, r) =>
          some (⟨C, c, r, attributes.map fun a => if a.2 then none else some a.1⟩,
                ⟨pk, some t⟩)

/-- `Client.unbind_sig`: return `(sig1, sig2 - sig1 * t)` for the stored
blinding scalar `t`; when no scalar was ever stored (`self.__t is None`)
the multiplication raises (`TypeError`), modelled by `none`. -/
def unbindSig {o : ℕ} (cl : Client o) (sigPrime : ZMod o × ZMod o) :
    Option (ZMod o × ZMod o) :=
  match cl.t with
  | none => none
  | some t => some (sigPrime.1, sigPrime.2 - sigPrime.1 * (t : ZMod o))

/-- The accumulator loop of `Client.verify` (lines 122–125): starting from
`X`, add `Yg2[i] * hash(attribute_i)` for every attribute (hidden and
plain alike), reading only the raw byte value of each entry. -/
def verifyAcc {o : ℕ} {α : Type} (pk : PubKey o) (digest : α → List ℕ) :
    List (α × Bool) → ℕ → ZMod o → ZMod o
  | [], _, acc => acc
  | a :: rest, i, acc =>
      verifyAcc pk digest rest (i + 1) (acc + pk.Yg2 i * (attrHash digest a.1 : ZMod o))

/-- `Client.verify`: the bare pairing check
`e(sig1, X + Σ Yg2[i] * hash(attr_i)) == e(sig2, g2)`. -/
def verify {o : ℕ} {α : Type} (cl : Client o) (digest : α → List ℕ)
    (sig : ZMod o × ZMod o) (attributes : List (α × Bool)) : Bool :=
  decide (pair sig.1 (verifyAcc cl.idpPk digest attributes 0 cl.idpPk.X)
    = pair sig.2 cl.idpPk.g2)

/-- Modelled from the spec: honest issuer key generation — secret `x` and
per-slot secrets `y i`, public key `(g1, g2, X = g2*x, Yg1[i] = g1*(y i),
Yg2[i] = g2*(y i))` with unit generators in the exponent representation. -/
def honestPk (o : ℕ) (x : ZMod o) (y : ℕ → ZMod o) : PubKey o :=
  ⟨1, 1, x, y, y⟩

/-- Modelled from the spec: the plain-attribute term the faithful issuer
folds into the blinded signature — `Σ Yg1[i] * hash(v)` over the request
attribute slots that carry a plaintext value `v`. -/
def issuerPlainSum {o : ℕ} {α : Type} (pk : PubKey o) (digest : α → List ℕ) :
    List (Option α) → ℕ → ZMod o
  | [], _ => 0
  | none :: rest, i => issuerPlainSum pk digest rest (i + 1)
  | some v :: rest, i =>
      pk.Yg1 i * (attrHash digest v : ZMod o) + issuerPlainSum pk digest rest (i + 1)

/-- Modelled from the spec: the faithful issuer's blind signature on a
request — `sig1 = g1*u`, `sig2 = (g1*x + C + Σ_plain Yg1[i]*hash(v)) * u`,
which carries the client's blinding term `t` inside `C`. -/
def issuerBlindSign {o : ℕ} {α : Type} (pk : PubKey o) (digest : α → List ℕ)
    (x : ZMod o) (u : ZMod o) (req : Request o α) : ZMod o × ZMod o :=
  (pk.g1 * u, (pk.g1 * x + req.C + issuerPlainSum pk digest req.attributes 0) * u)

/-! ### Spec-side sums and basic lemmas -/

/-- Spec-side sum over the hidden attribute slots:
`Σ Y[i] * hash(attr_i)` over positions `i` whose attribute is hidden,
with `i` counted from the given start index. -/
def hiddenSum {o : ℕ} {α : Type} (Y : ℕ → ZMod o) (digest : α → List ℕ) :
    List (α × Bool) → ℕ → ZMod o
  | [], _ => 0
  | a :: rest, i =>
      (if a.2 then Y i * (attrHash digest a.1 : ZMod o) else 0)
        + hiddenSum Y digest rest (i + 1)

/-- Spec-side sum over the plain attribute slots. -/
def plainSum {o : ℕ} {α : Type} (Y : ℕ → ZMod o) (digest : α → List ℕ) :
    List (α × Bool) → ℕ → ZMod o
  | [], _ => 0
  | a :: rest, i =>
      (if a.2 then 0 else Y i * (attrHash digest a.1 : ZMod o))
        + plainSum Y digest rest (i + 1)

/-- Spec-side sum over all attribute slots, hidden and plain alike. -/
def totalSum {o : ℕ} {α : Type} (Y : ℕ → ZMod o) (digest : α → List ℕ) :
    List (α × Bool) → ℕ → ZMod o
  | [], _ => 0
  | a :: rest, i =>
      Y i * (attrHash digest a.1 : ZMod o) + totalSum Y digest rest (i + 1)

/-- Number of hidden attributes in a vector. -/
def countHidden {α : Type} (l : List (α × Bool)) : ℕ :=
  (l.filter fun a => a.2).length

/-- No attribute of the vector is hidden. -/
def allPlain {α : Type} (l : List (α × Bool)) : Bool :=
  l.all fun a => !a.2

/-- The hidden attributes of the vector form a (possibly empty) initial
segment: once a plain attribute occurs, no hidden attribute follows. -/
def hiddenLeading {α : Type} : List (α × Bool) → Bool
  | [] => true
  | a :: rest => if a.2 then hiddenLeading rest else allPlain rest


/-- Spec-side value of the response tail built by the loop of lines 97–98:
entry `k` is `rand (i + k + 1) - hashed_k * c`, over the integers. -/
def rSpec (c : ℤ) (rand : ℕ → ℤ) : List ℕ → ℕ → List ℤ
  | [], _ => []
  | h :: rest, i => (rand (i + 1) - (h : ℤ) * c) :: rSpec c rand rest (i + 1)


/-! ### Round trip and concrete instances -/

/-- Modelled from the spec (§8.1): the round-trip harness — generate a
request, have the faithful issuer blind-sign it, unblind with the stored
session state, and verify against the full attribute vector. -/
def roundTrip {o : ℕ} {α β : Type} (pk : PubKey o) (digest : α → List ℕ)
    (chal : ZMod o → ZMod o → β → ℤ) (x u : ZMod o) (t : ℤ) (rand : ℕ → ℤ)
    (attrs : List (α × Bool)) (data : β) : Option Bool :=
  match requestId pk digest chal t rand attrs data with
  | none => none
  | some (req, st) =>
      match unbindSig st (issuerBlindSign pk digest x u req) with
      | none => none
      | some sig => some (verify (mkClient pk) digest sig attrs)

/-- Concrete per-slot secrets for a small evaluation instance. -/
def yEx : ℕ → ZMod 7 := fun i => (i : ZMod 7) + 1

/-- Concrete honestly generated public key over a field of order 7. -/
def pkEx : PubKey 7 := honestPk 7 2 yEx

/-- Concrete single-byte digest function for evaluation instances. -/
def digestEx : ℕ → List ℕ := fun n => [n % 256]

/-- Concrete challenge function for evaluation instances (a constant
function is one possible behaviour of the modelled transcript hash). -/
def chalEx : ZMod 7 → ZMod 7 → ℕ → ℤ := fun _ _ _ => 2

/-- Concrete randomness stream for evaluation instances. -/
def randEx : ℕ → ℤ := fun k => k

/-- Concrete public key over a field of order 5 (used to exhibit the
missing modular reduction of the proof responses). -/
def pkEx5 : PubKey 5 := honestPk 5 2 fun _ => 1

/-- Concrete digest function for the order-5 instance. -/
def digest5 : ℕ → List ℕ := fun n => [n % 256]

/-- Concrete challenge function for the order-5 instance. -/
def chal5 : ZMod 5 → ZMod 5 → ℕ → ℤ := fun _ _ _ => 3

/-- The request produced by `requestId pkEx digestEx chalEx 3 randEx
[(4, hidden)] 0`: commitment `g1*3 + Yg1[0]*4 = 0`, challenge `2`,
responses `[0 - 3*2, 1 - 4*2]`. -/
def req0 : Request 7 ℕ := ⟨0, 2, [-6, -7], [none]⟩

/-- The client state after that request: the blinding scalar 3 is stored. -/
def st0 : Client 7 := ⟨pkEx, some 3⟩

/-- A 32-byte digest value whose big-endian integer value is 6 — a
perfectly well-formed digest output that exceeds a field order of 5. -/
def digestBad : Unit → List ℕ := fun _ => List.replicate 31 0 ++ [6]


theorem hiddenSum_add_plainSum {o : ℕ} {α : Type} (Y : ℕ → ZMod o)
    (digest : α → List ℕ) (l : List (α × Bool)) (i : ℕ) :
    hiddenSum Y digest l i + plainSum Y digest l i = totalSum Y digest l i := by
  induction l generalizing i with
  | nil => simp [hiddenSum, plainSum, totalSum]
  | cons a rest ih =>
      simp only [hiddenSum, plainSum, totalSum]
      rw [← ih (i + 1)]
      split_ifs <;> ring

theorem hiddenSum_of_allPlain {o : ℕ} {α : Type} (Y : ℕ → ZMod o)
    (digest : α → List ℕ) (l : List (α × Bool)) (i : ℕ)
    (h : ∀ a ∈ l, a.2 = false) : hiddenSum Y digest l i = 0 := by
  induction l generalizing i with
  | nil => rfl
  | cons a rest ih =>
      have ha : a.2 = false := h a (List.mem_cons_self a rest)
      simp [hiddenSum, ha]
      exact ih (i + 1) fun b hb => h b (List.mem_cons_of_mem a hb)

theorem verifyAcc_eq {o : ℕ} {α : Type} (pk : PubKey o) (digest : α → List ℕ)
    (l : List (α × Bool)) (i : ℕ) (acc : ZMod o) :
    verifyAcc pk digest l i acc = acc + totalSum pk.Yg2 digest l i := by
  induction l generalizing i acc with
  | nil => simp [verifyAcc, totalSum]
  | cons a rest ih =>
      simp only [verifyAcc, totalSum]
      rw [ih]
      ring

theorem issuerPlainSum_eq {o : ℕ} {α : Type} (pk : PubKey o)
    (digest : α → List ℕ) (l : List (α × Bool)) (i : ℕ) :
    issuerPlainSum pk digest (l.map fun a => if a.2 then none else some a.1) i
      = plainSum pk.Yg1 digest l i := by
  induction l generalizing i with
  | nil => rfl
  | cons a rest ih =>
      cases h : a.2 <;>
        simp [List.map_cons, h, issuerPlainSum, plainSum, ih]

theorem commitLoop_eq {o : ℕ} {α : Type} (pk : PubKey o) (digest : α → List ℕ)
    (hashed : List ℕ) :
    ∀ (l : List (α × Bool)) (i j : ℕ) (C : ZMod o),
      (∀ k, hashed[j + k]? = (hashHiddenAttributes digest l)[k]?) →
      commitLoop pk hashed l i j C = some (C + hiddenSum pk.Yg1 digest l i) := by
  intro l
  induction l with
  | nil => intro i j C _; simp [commitLoop, hiddenSum]
  | cons a rest ih =>
      intro i j C hk
      cases h : a.2 with
      | true =>
          have h0 : hashed[j]? = some (attrHash digest a.1) := by
            have := hk 0
            simpa [hashHiddenAttributes, h] using this
          have hrec : ∀ k, hashed[j + 1 + k]?
              = (hashHiddenAttributes digest rest)[k]? := by
            intro k
            have := hk (k + 1)
            simpa [hashHiddenAttributes, h, Nat.add_assoc, Nat.add_comm 1 k] using this
          simp only [commitLoop, h, h0, if_true]
          rw [ih (i + 1) (j + 1) _ hrec]
          simp only [hiddenSum, h, if_true]
          congr 1
          ring
      | false =>
          have hrec : ∀ k, hashed[j + k]?
              = (hashHiddenAttributes digest rest)[k]? := by
            intro k
            simpa [hashHiddenAttributes, h] using hk k
          simp only [commitLoop, h, Bool.false_eq_true, if_false]
          rw [ih (i + 1) j _ hrec]
          simp only [hiddenSum, h, Bool.false_eq_true, if_false]
          congr 1
          ring

theorem createCommitment_eq {o : ℕ} {α : Type} (pk : PubKey o)
    (digest : α → List ℕ) (attrs : List (α × Bool)) (t : ℤ) :
    createCommitment pk (hashHiddenAttributes digest attrs) attrs t
      = some (pk.g1 * (t : ZMod o) + hiddenSum pk.Yg1 digest attrs 0) := by
  exact commitLoop_eq pk digest _ attrs 0 0 _ fun k => by rw [Nat.zero_add]

/-! ### Analysis of the `create_zkp` loops -/

theorem hashHiddenAttributes_length {α : Type} (digest : α → List ℕ)
    (l : List (α × Bool)) :
    (hashHiddenAttributes digest l).length = countHidden l := by
  induction l with
  | nil => rfl
  | cons a rest ih =>
      cases h : a.2 <;> simp [hashHiddenAttributes, countHidden, List.filter, h] <;>
        simpa [countHidden] using ih

theorem zkpVLoop_isSome_short {o : ℕ} {α : Type} (pk : PubKey o) (rand : ℕ → ℤ) :
    ∀ (l : List (α × Bool)) (i : ℕ) (rnd : List ℤ) (V : ZMod o),
      rnd.length ≤ i →
      (zkpVLoop pk rand l i rnd V).isSome = allPlain l := by
  intro l
  induction l with
  | nil => intro i rnd V _; simp [zkpVLoop, allPlain]
  | cons a rest ih =>
      intro i rnd V hlen
      cases h : a.2 with
      | true =>
          have hnone : (rnd ++ [rand rnd.length])[i + 1]? = none := by
            apply List.getElem?_eq_none
            simp only [List.length_append, List.length_singleton]
            omega
          simp [zkpVLoop, h, hnone, allPlain]
      | false =>
          have := ih (i + 1) rnd V (Nat.le_succ_of_le hlen)
          simp only [zkpVLoop, h, Bool.false_eq_true, if_false]
          rw [this]
          simp [allPlain, h]

theorem zkpVLoop_isSome_exact {o : ℕ} {α : Type} (pk : PubKey o) (rand : ℕ → ℤ) :
    ∀ (l : List (α × Bool)) (i : ℕ) (rnd : List ℤ) (V : ZMod o),
      rnd.length = i + 1 →
      (zkpVLoop pk rand l i rnd V).isSome = hiddenLeading l := by
  intro l
  induction l with
  | nil => intro i rnd V _; simp [zkpVLoop, hiddenLeading]
  | cons a rest ih =>
      intro i rnd V hlen
      cases h : a.2 with
      | true =>
          have hsome : (rnd ++ [rand rnd.length])[i + 1]?
              = some (rand rnd.length) := by
            rw [show i + 1 = rnd.length by omega]
            exact List.getElem?_concat_length ..
          have hlen2 : (rnd ++ [rand rnd.length]).length = (i + 1) + 1 := by
            simp only [List.length_append, List.length_singleton]
            omega
          simp only [zkpVLoop, h, if_true, hsome]
          rw [ih (i + 1) _ _ hlen2]
          simp [hiddenLeading, h]
      | false =>
          have := zkpVLoop_isSome_short pk rand rest (i + 1) rnd V (by omega)
          simp only [zkpVLoop, h, Bool.false_eq_true, if_false]
          rw [this]
          simp [hiddenLeading, h]

theorem zkpVLoop_some_shape {o : ℕ} {α : Type} (pk : PubKey o) (rand : ℕ → ℤ) :
    ∀ (l : List (α × Bool)) (i L : ℕ) (V : ZMod o) (out : List ℤ × ZMod o),
      zkpVLoop pk rand l i ((List.range L).map rand) V = some out →
      out.1 = (List.range (L + countHidden l)).map rand := by
  intro l
  induction l with
  | nil =>
      intro i L V out h
      simp only [zkpVLoop] at h
      cases h
      simp [countHidden]
  | cons a rest ih =>
      intro i L V out h
      cases ha : a.2 with
      | true =>
          rw [zkpVLoop, ha] at h
          simp only [if_true] at h
          have hext : (List.range L).map rand ++ [rand ((List.range L).map rand).length]
              = (List.range (L + 1)).map rand := by
            simp [List.range_succ]
          rw [hext] at h
          cases hg : ((List.range (L + 1)).map rand)[i + 1]? with
          | none => rw [hg] at h; cases h
          | some rv =>
              rw [hg] at h
              have := ih (i + 1) (L + 1) _ out h
              rw [this]
              have : L + 1 + countHidden rest = L + countHidden (a :: rest) := by
                simp [countHidden, List.filter, ha]
                omega
              rw [this]
      | false =>
          rw [zkpVLoop, ha] at h
          simp only [Bool.false_eq_true, if_false] at h
          have := ih (i + 1) L V out h
          rw [this]
          have : L + countHidden rest = L + countHidden (a :: rest) := by
            simp [countHidden, List.filter, ha]
          rw [this]

theorem rSpec_length (c : ℤ) (rand : ℕ → ℤ) :
    ∀ (hashed : List ℕ) (i : ℕ), (rSpec c rand hashed i).length = hashed.length := by
  intro hashed
  induction hashed with
  | nil => intro i; rfl
  | cons h rest ih => intro i; simp [rSpec, ih]

theorem rSpec_getElem (c : ℤ) (rand : ℕ → ℤ) :
    ∀ (hashed : List ℕ) (i k : ℕ),
      (rSpec c rand hashed i)[k]? = hashed[k]?.map fun h => rand (i + k + 1) - (h : ℤ) * c := by
  intro hashed
  induction hashed with
  | nil => intro i k; simp [rSpec]
  | cons h rest ih =>
      intro i k
      cases k with
      | zero => simp [rSpec]
      | succ k =>
          simp only [rSpec, List.getElem?_cons_succ]
          rw [ih (i + 1) k]
          have : i + 1 + k + 1 = i + (k + 1) + 1 := by omega
          rw [this]

theorem rLoop_range_eq (c : ℤ) (rand : ℕ → ℤ) :
    ∀ (hashed : List ℕ) (i L : ℕ), i + hashed.length < L →
      rLoop c ((List.range L).map rand) hashed i = some (rSpec c rand hashed i) := by
  intro hashed
  induction hashed with
  | nil => intro i L _; rfl
  | cons h rest ih =>
      intro i L hb
      have hg : ((List.range L).map rand)[i + 1]? = some (rand (i + 1)) := by
        rw [List.getElem?_map, List.getElem?_range (by simp at hb; omega)]
        rfl
      simp only [rLoop, hg]
      rw [ih (i + 1) L (by simp at hb; omega)]
      rfl

theorem createZkp_isSome_eq {o : ℕ} {α β : Type} (pk : PubKey o)
    (digest : α → List ℕ) (chal : ZMod o → ZMod o → β → ℤ) (t : ℤ)
    (rand : ℕ → ℤ) (attrs : List (α × Bool)) (C : ZMod o) (data : β) :
    (createZkp pk rand chal t attrs (hashHiddenAttributes digest attrs) C data).isSome
      = hiddenLeading attrs := by
  have hinit : [rand 0] = (List.range 1).map rand := by
    rw [show List.range 1 = [0] from rfl]
    rfl
  have hlead := zkpVLoop_isSome_exact pk rand attrs 0 [rand 0]
    (pk.g1 * (rand 0 : ZMod o)) (by simp)
  cases hv : zkpVLoop pk rand attrs 0 [rand 0] (pk.g1 * (rand 0 : ZMod o)) with
  | none =>
      rw [hv] at hlead
      simp only [createZkp, hv]
      exact hlead
  | some p =>
      obtain ⟨randomness, V⟩ := p
      rw [hv] at hlead
      have hshape : randomness = (List.range (1 + countHidden attrs)).map rand := by
        have := zkpVLoop_some_shape pk rand attrs 0 1
          (pk.g1 * (rand 0 : ZMod o)) (randomness, V) (by rw [← hinit]; exact hv)
        exact this
      have h0 : randomness[0]? = some (rand 0) := by
        rw [hshape, List.getElem?_map, List.getElem?_range (by omega)]
        rfl
      have hr : rLoop (chal C V data) randomness (hashHiddenAttributes digest attrs) 0
          = some (rSpec (chal C V data) rand (hashHiddenAttributes digest attrs) 0) := by
        rw [hshape]
        exact rLoop_range_eq _ rand _ 0 _
          (by rw [Nat.zero_add, hashHiddenAttributes_length]; omega)
      simp only [createZkp, hv, h0, hr]
      exact hlead

theorem createZkp_some_shape {o : ℕ} {α β : Type} (pk : PubKey o)
    (digest : α → List ℕ) (chal : ZMod o → ZMod o → β → ℤ) (t : ℤ)
    (rand : ℕ → ℤ) (attrs : List (α × Bool)) (C : ZMod o) (data : β)
    (V : ZMod o) (c : ℤ) (r : List ℤ)
    (h : createZkp pk rand chal t attrs (hashHiddenAttributes digest attrs) C data
      = some (V, c, r)) :
    c = chal C V data
      ∧ r = (rand 0 - t * c) :: rSpec c rand (hashHiddenAttributes digest attrs) 0 := by
  have hinit : [rand 0] = (List.range 1).map rand := by
    rw [show List.range 1 = [0] from rfl]
    rfl
  cases hv : zkpVLoop pk rand attrs 0 [rand 0] (pk.g1 * (rand 0 : ZMod o)) with
  | none => rw [createZkp, hv] at h; cases h
  | some p =>
      obtain ⟨randomness, V2⟩ := p
      have hshape : randomness = (List.range (1 + countHidden attrs)).map rand := by
        exact zkpVLoop_some_shape pk rand attrs 0 1
          (pk.g1 * (rand 0 : ZMod o)) (randomness, V2) (by rw [← hinit]; exact hv)
      have h0 : randomness[0]? = some (rand 0) := by
        rw [hshape, List.getElem?_map, List.getElem?_range (by omega)]
        rfl
      have hr : rLoop (chal C V2 data) randomness (hashHiddenAttributes digest attrs) 0
          = some (rSpec (chal C V2 data) rand (hashHiddenAttributes digest attrs) 0) := by
        rw [hshape]
        exact rLoop_range_eq _ rand _ 0 _
          (by rw [Nat.zero_add, hashHiddenAttributes_length]; omega)
      rw [createZkp, hv] at h
      simp only [h0, hr, Option.some.injEq, Prod.mk.injEq] at h
      obtain ⟨hV, hc, hrr⟩ := h
      subst hV
      refine ⟨hc.symm, ?_⟩
      rw [← hrr, hc]

theorem requestId_isSome_eq {o : ℕ} {α β : Type} (pk : PubKey o)
    (digest : α → List ℕ) (chal : ZMod o → ZMod o → β → ℤ) (t : ℤ)
    (rand : ℕ → ℤ) (attrs : List (α × Bool)) (data : β) :
    (requestId pk digest chal t rand attrs data).isSome = hiddenLeading attrs := by
  have hz := createZkp_isSome_eq pk digest chal t rand attrs
    (pk.g1 * (t : ZMod o) + hiddenSum pk.Yg1 digest attrs 0) data
  simp only [requestId, createCommitment_eq]
  cases hzz : createZkp pk rand chal t attrs (hashHiddenAttributes digest attrs)
      (pk.g1 * (t : ZMod o) + hiddenSum pk.Yg1 digest attrs 0) data with
  | none => rw [hzz] at hz; exact hz
  | some p =>
      obtain ⟨V, c, r⟩ := p
      rw [hzz] at hz
      exact hz

theorem requestId_some_shape {o : ℕ} {α β : Type} (pk : PubKey o)
    (digest : α → List ℕ) (chal : ZMod o → ZMod o → β → ℤ) (t : ℤ)
    (rand : ℕ → ℤ) (attrs : List (α × Bool)) (data : β)
    (req : Request o α) (st : Client o)
    (h : requestId pk digest chal t rand attrs data = some (req, st)) :
    st = ⟨pk, some t⟩
      ∧ req.C = pk.g1 * (t : ZMod o) + hiddenSum pk.Yg1 digest attrs 0
      ∧ req.attributes = attrs.map fun a => if a.2 then none else some a.1 := by
  simp only [requestId, createCommitment_eq] at h
  cases hzz : createZkp pk rand chal t attrs (hashHiddenAttributes digest attrs)
      (pk.g1 * (t : ZMod o) + hiddenSum pk.Yg1 digest attrs 0) data with
  | none => rw [hzz] at h; cases h
  | some p =>
      obtain ⟨V, c, r⟩ := p
      rw [hzz] at h
      simp only [Option.some.injEq, Prod.mk.injEq] at h
      obtain ⟨hreq, hst⟩ := h
      subst hreq
      subst hst
      exact ⟨rfl, rfl, rfl⟩

theorem allPlain_iff {α : Type} (l : List (α × Bool)) :
    allPlain l = true ↔ ∀ a ∈ l, a.2 = false := by
  simp [allPlain, List.all_eq_true]

/-- `hiddenLeading` means exactly that the vector splits as a block of
hidden attributes followed by a block of plain ones. -/
theorem hiddenLeading_iff_decomp {α : Type} (l : List (α × Bool)) :
    hiddenLeading l = true
      ↔ ∃ hpart ppart, l = hpart ++ ppart
          ∧ (∀ a ∈ hpart, a.2 = true) ∧ (∀ a ∈ ppart, a.2 = false) := by
  induction l with
  | nil =>
      constructor
      · intro _
        exact ⟨[], [], rfl, by simp, by simp⟩
      · intro _; rfl
  | cons a rest ih =>
      cases ha : a.2 with
      | true =>
          simp only [hiddenLeading, ha, if_true]
          constructor
          · intro h
            obtain ⟨hp, pp, heq, hh, hpl⟩ := ih.1 h
            refine ⟨a :: hp, pp, by rw [heq]; rfl, ?_, hpl⟩
            intro b hb
            rcases List.mem_cons.1 hb with hb | hb
            · rw [hb]; exact ha
            · exact hh b hb
          · rintro ⟨hp, pp, heq, hh, hpl⟩
            cases hp with
            | nil =>
                exfalso
                have : a ∈ pp := by
                  rw [List.nil_append] at heq
                  rw [← heq]
                  exact List.mem_cons_self a rest
                rw [hpl a this] at ha
                cases ha
            | cons b hp2 =>
                have heq2 : rest = hp2 ++ pp := by
                  simpa using congrArg List.tail heq
                exact ih.2 ⟨hp2, pp, heq2, fun x hx => hh x (List.mem_cons_of_mem b hx), hpl⟩
      | false =>
          simp only [hiddenLeading, ha, Bool.false_eq_true, if_false]
          constructor
          · intro h
            refine ⟨[], a :: rest, rfl, by simp, ?_⟩
            intro b hb
            rcases List.mem_cons.1 hb with hb | hb
            · rw [hb]; exact ha
            · exact (allPlain_iff rest).1 h b hb
          · rintro ⟨hp, pp, heq, hh, hpl⟩
            apply (allPlain_iff rest).2
            cases hp with
            | nil =>
                intro b hb
                apply hpl
                rw [List.nil_append] at heq
                rw [← heq]
                exact List.mem_cons_of_mem a hb
            | cons x hp2 =>
                exfalso
                have hax : a = x := by
                  have := congrArg List.head? heq
                  simpa using this
                rw [hax] at ha
                rw [hh x (List.mem_cons_self x hp2)] at ha
                cases ha

theorem digestBad_good : GoodDigest digestBad := by
  intro u
  cases u
  exact ⟨by decide, by decide⟩

/-! ### Arithmetic facts about the attribute hash -/

theorem fromBinary_foldl_bound :
    ∀ (bytes : List ℕ) (acc : ℕ), (∀ b ∈ bytes, b < 256) →
      bytes.foldl (fun acc b => acc * 256 + b) acc < (acc + 1) * 256 ^ bytes.length := by
  intro bytes
  induction bytes with
  | nil => intro acc _; simp
  | cons b rest ih =>
      intro acc h
      have hb : b < 256 := h b (List.mem_cons_self b rest)
      calc (b :: rest).foldl (fun acc b => acc * 256 + b) acc
          = rest.foldl (fun acc b => acc * 256 + b) (acc * 256 + b) := rfl
        _ < (acc * 256 + b + 1) * 256 ^ rest.length :=
            ih (acc * 256 + b) fun x hx => h x (List.mem_cons_of_mem b hx)
        _ ≤ ((acc + 1) * 256) * 256 ^ rest.length :=
            Nat.mul_le_mul_right _ (by omega)
        _ = (acc + 1) * 256 ^ (b :: rest).length := by
            rw [List.length_cons, pow_succ]
            ring

theorem attrHash_lt_of_good {α : Type} (digest : α → List ℕ)
    (h : GoodDigest digest) (a : α) : attrHash digest a < 2 ^ 256 := by
  have hb := fromBinary_foldl_bound (digest a) 0 (h a).2
  rw [(h a).1] at hb
  calc attrHash digest a < (0 + 1) * 256 ^ 32 := hb
    _ = 2 ^ 256 := by norm_num

theorem hashHiddenAttributes_eq_filter_map {α : Type} (digest : α → List ℕ)
    (attrs : List (α × Bool)) :
    hashHiddenAttributes digest attrs
      = (attrs.filter fun a => a.2).map fun a => attrHash digest a.1 := by
  induction attrs with
  | nil => rfl
  | cons a rest ih =>
      cases h : a.2 <;> simp [hashHiddenAttributes, List.filter, h, ih]

/-! ### Round-trip completeness for any request the code can build -/

/-- Whenever `request_id` completes (the hidden attributes lead the
vector), signing faithfully, unblinding with the session state and
verifying against the full attribute vector yields `true`. -/
theorem roundTrip_verifies {o : ℕ} {α β : Type} (x : ZMod o) (y : ℕ → ZMod o)
    (digest : α → List ℕ) (chal : ZMod o → ZMod o → β → ℤ) (t : ℤ)
    (rand : ℕ → ℤ) (attrs : List (α × Bool)) (data : β) (u : ZMod o) (b : Bool)
    (h : roundTrip (honestPk o x y) digest chal x u t rand attrs data = some b) :
    b = true := by
  cases hr : requestId (honestPk o x y) digest chal t rand attrs data with
  | none => rw [roundTrip, hr] at h; cases h
  | some p =>
      obtain ⟨req, st⟩ := p
      obtain ⟨hst, hC, hattrs⟩ :=
        requestId_some_shape (honestPk o x y) digest chal t rand attrs data req st hr
      rw [roundTrip, hr] at h
      subst hst
      simp only [unbindSig, issuerBlindSign] at h
      have hb := Option.some.inj h
      rw [← hb]
      rw [verify]
      apply decide_eq_true
      rw [verifyAcc_eq, hC, hattrs, issuerPlainSum_eq]
      show pair ((honestPk o x y).g1 * u) _ = _
      simp only [honestPk, mkClient, pair]
      rw [← hiddenSum_add_plainSum y digest attrs 0]
      ring

theorem verifyAcc_map_fst {o : ℕ} {α : Type} (pk : PubKey o)
    (digest : α → List ℕ) :
    ∀ (l1 l2 : List (α × Bool)) (i : ℕ) (acc : ZMod o),
      l1.map Prod.fst = l2.map Prod.fst →
      verifyAcc pk digest l1 i acc = verifyAcc pk digest l2 i acc := by
  intro l1
  induction l1 with
  | nil =>
      intro l2 i acc h
      rw [List.eq_nil_of_map_eq_nil h.symm]
  | cons a rest ih =>
      intro l2 i acc h
      cases l2 with
      | nil => cases h
      | cons b rest2 =>
          simp only [List.map_cons, List.cons.injEq] at h
          obtain ⟨h1, h2⟩ := h
          simp only [verifyAcc, h1]
          exact ih rest2 (i + 1) _ h2

/-! ### Claim theorems -/

/-- C1.  The spec's round trip (request, faithful blind signature,
unblind, verify) is claimed to yield `true` for every mix of hidden and
plain attributes.  Evaluating the code: with a plain attribute before a
hidden one, `request_id` aborts with an `IndexError` inside `create_zkp`
(the `none` outcome), so the round trip cannot even produce a request;
permuting the same two attributes so the hidden one leads makes the whole
round trip succeed and verify `true`. -/
theorem roundTrip_position_dependent :
    roundTrip pkEx digestEx chalEx 2 3 3 randEx [((0:ℕ), false), (1, true)] 0 = none
    ∧ roundTrip pkEx digestEx chalEx 2 3 3 randEx [((1:ℕ), true), (0, false)] 0 = some true :=
  ⟨by decide, by decide⟩

/-- C2 (amended).  `verify` returns `true` exactly when the bare pairing
equation `e(sig1, X + Σ Yg2[i]·hash(attr_i)) = e(sig2, g2)` holds over all
attributes; it performs no identity-element rejection on `sig1`. -/
theorem verify_iff_pairing {o : ℕ} {α : Type} (cl : Client o)
    (digest : α → List ℕ) (sig : ZMod o × ZMod o) (attrs : List (α × Bool)) :
    verify cl digest sig attrs = true
      ↔ pair sig.1 (cl.idpPk.X + totalSum cl.idpPk.Yg2 digest attrs 0)
          = pair sig.2 cl.idpPk.g2 := by
  rw [verify, verifyAcc_eq, decide_eq_true_eq]

/-- C2 (counterexample).  A signature whose `sig1` component is the
group-1 identity is accepted by `verify` when the pairing equation holds
(both pairings are trivial), contradicting the claim that `verify`
returns `false` for every identity `sig1`. -/
theorem verify_accepts_identity_sig1 :
    verify (mkClient pkEx) digestEx (idG1 7, idG1 7) [((0:ℕ), false)] = true := by
  decide

/-- C3.  The claim says `create_zkp` pairs the `k`-th fresh random with
the `k`-th hidden slot regardless of where the hidden entries sit.
Evaluating the code: with a plain attribute in front, the V-loop indexes
the randomness list with the global attribute index and aborts (`none`);
when the hidden attributes lead, the loop does produce
`V = g1·rand 0 + Σ Yg1[slot k]·rand k` (here
`V = g1·0 + Yg1[0]·1 + Yg1[1]·2 = 5`). -/
theorem createZkp_index_drift :
    createZkp pkEx randEx chalEx 3 [((0:ℕ), false), (1, true), (2, true)]
      (hashHiddenAttributes digestEx [((0:ℕ), false), (1, true), (2, true)]) 0 0 = none
    ∧ createZkp pkEx randEx chalEx 3 [((5:ℕ), true), (6, true)]
        (hashHiddenAttributes digestEx [((5:ℕ), true), (6, true)]) 0 0
        = some (5, 2, [-6, -9, -10])
    ∧ (5 : ZMod 7) = pkEx.g1 * ((randEx 0 : ℤ) : ZMod 7)
        + pkEx.Yg1 0 * ((randEx 1 : ℤ) : ZMod 7)
        + pkEx.Yg1 1 * ((randEx 2 : ℤ) : ZMod 7) :=
  ⟨by decide, by decide, by decide⟩

/-- C4.  `__create_commitment` returns
`C = g1·t + Σ Yg1[i]·hash(attr_i)` over the hidden positions, consuming
the pre-hashed scalars in hidden-appearance order; with no hidden
attribute it returns `g1·t`; and a completed `request_id` stores exactly
this `t` in the session state and this `C` in the request. -/
theorem createCommitment_formula {o : ℕ} {α : Type} (β : Type) (pk : PubKey o)
    (digest : α → List ℕ) (attrs : List (α × Bool)) (t : ℤ) :
    createCommitment pk (hashHiddenAttributes digest attrs) attrs t
      = some (pk.g1 * (t : ZMod o) + hiddenSum pk.Yg1 digest attrs 0)
    ∧ ((∀ a ∈ attrs, a.2 = false) →
        createCommitment pk (hashHiddenAttributes digest attrs) attrs t
          = some (pk.g1 * (t : ZMod o)))
    ∧ (∀ (chal : ZMod o → ZMod o → β → ℤ) (rand : ℕ → ℤ) (data : β)
        (req : Request o α) (st : Client o),
        requestId pk digest chal t rand attrs data = some (req, st) →
        st.t = some t
          ∧ req.C = pk.g1 * (t : ZMod o) + hiddenSum pk.Yg1 digest attrs 0) := by
  refine ⟨createCommitment_eq pk digest attrs t, ?_, ?_⟩
  · intro h
    rw [createCommitment_eq, hiddenSum_of_allPlain _ _ _ _ h, add_zero]
  · intro chal rand data req st h
    obtain ⟨hst, hC, -⟩ := requestId_some_shape pk digest chal t rand attrs data req st h
    exact ⟨by rw [hst], hC⟩

/-- Witness for C4 at concrete inputs: the zero-hidden case and the
session-state retention both evaluated. -/
theorem createCommitment_formula_witness :
    (∀ a ∈ [((9:ℕ), false)], a.2 = false)
    ∧ createCommitment pkEx (hashHiddenAttributes digestEx [((9:ℕ), false)])
        [((9:ℕ), false)] 3 = some (pkEx.g1 * ((3:ℤ) : ZMod 7))
    ∧ requestId pkEx digestEx chalEx 3 randEx [((4:ℕ), true)] 0 = some (req0, st0)
    ∧ (st0.t = some 3
        ∧ req0.C = pkEx.g1 * ((3:ℤ) : ZMod 7)
            + hiddenSum pkEx.Yg1 digestEx [((4:ℕ), true)] 0) := by
  refine ⟨by decide, ?_, rfl, ?_⟩
  · exact (createCommitment_formula ℕ pkEx digestEx [((9:ℕ), false)] 3).2.1 (by decide)
  · exact (createCommitment_formula ℕ pkEx digestEx [((4:ℕ), true)] 3).2.2
      chalEx randEx 0 req0 st0 rfl

/-- C5 (amended).  When `create_zkp` completes, the response vector has
length `1 + |hidden|`, with `r_0 = random_0 - t·c` and
`r_k = random_k - hashed_k·c` — computed by plain integer subtraction,
with no reduction modulo the field order. -/
theorem createZkp_responses_integer {o : ℕ} {α β : Type} (pk : PubKey o)
    (digest : α → List ℕ) (chal : ZMod o → ZMod o → β → ℤ) (t : ℤ)
    (rand : ℕ → ℤ) (attrs : List (α × Bool)) (C : ZMod o) (data : β)
    (V : ZMod o) (c : ℤ) (r : List ℤ)
    (h : createZkp pk rand chal t attrs (hashHiddenAttributes digest attrs) C data
      = some (V, c, r)) :
    r.length = 1 + (hashHiddenAttributes digest attrs).length
    ∧ r[0]? = some (rand 0 - t * c)
    ∧ ∀ k, r[k + 1]? = ((hashHiddenAttributes digest attrs)[k]?).map
        fun hh => rand (k + 1) - (hh : ℤ) * c := by
  obtain ⟨hc, hr⟩ := createZkp_some_shape pk digest chal t rand attrs C data V c r h
  subst hr
  refine ⟨?_, by simp, ?_⟩
  · rw [List.length_cons, rSpec_length]
    omega
  · intro k
    simp only [List.getElem?_cons_succ]
    rw [rSpec_getElem]
    have hk : 0 + k + 1 = k + 1 := by omega
    rw [hk]

/-- Witness for C5's amended statement at a concrete completed call. -/
theorem createZkp_responses_integer_witness :
    createZkp pkEx randEx chalEx 3 [((4:ℕ), true)]
      (hashHiddenAttributes digestEx [((4:ℕ), true)]) 0 0 = some (1, 2, [-6, -7])
    ∧ ([(-6 : ℤ), -7].length = 1 + (hashHiddenAttributes digestEx [((4:ℕ), true)]).length
      ∧ [(-6 : ℤ), -7][0]? = some (randEx 0 - 3 * 2)
      ∧ ∀ k, [(-6 : ℤ), -7][k + 1]?
          = ((hashHiddenAttributes digestEx [((4:ℕ), true)])[k]?).map
              fun hh => randEx (k + 1) - (hh : ℤ) * 2) :=
  ⟨by decide, createZkp_responses_integer pkEx digestEx chalEx 3 randEx
    [((4:ℕ), true)] 0 0 1 2 [-6, -7] (by decide)⟩

/-- C5 (counterexample).  A completed `create_zkp` call whose first
response is `0 - 4·3 = -12`: the entry is negative, differs from the
value reduced modulo the field order 5 (which is 3), so the responses
are not reduced into `[0, field order)` as claimed. -/
theorem createZkp_responses_not_reduced :
    createZkp pkEx5 (fun _ => (0 : ℤ)) chal5 4 [((1:ℕ), true)]
      (hashHiddenAttributes digest5 [((1:ℕ), true)]) 0 0 = some (0, 3, [-12, -3])
    ∧ ¬((-12 : ℤ) = (0 - 4 * 3) % 5) ∧ (-12 : ℤ) < 0 :=
  ⟨by decide, by decide, by decide⟩

/-- C6 (amended).  Hashing is deterministic and used identically at
commitment time and verification time (`attrHash` is the single function
both sites evaluate), and the produced scalar is the digest's big-endian
integer interpretation — bounded by `2^256` for a 32-byte digest but NOT
reduced modulo the group order. -/
theorem attrHash_deterministic_unreduced {α : Type} (digest : α → List ℕ)
    (attrs : List (α × Bool)) :
    hashHiddenAttributes digest attrs
      = (attrs.filter fun a => a.2).map (fun a => attrHash digest a.1)
    ∧ (∀ a : α, attrHash digest a = fromBinary (digest a))
    ∧ (GoodDigest digest → ∀ a : α, attrHash digest a < 2 ^ 256) :=
  ⟨hashHiddenAttributes_eq_filter_map digest attrs, fun _ => rfl,
    fun h a => attrHash_lt_of_good digest h a⟩

/-- Witness for C6's amended statement with a concrete 32-byte digest. -/
theorem attrHash_deterministic_unreduced_witness :
    GoodDigest digestBad ∧ attrHash digestBad () < 2 ^ 256 :=
  ⟨digestBad_good,
    (attrHash_deterministic_unreduced digestBad [((), true)]).2.2 digestBad_good ()⟩

/-- C6 (counterexample).  A well-formed 32-byte digest whose big-endian
value is 6: for a group of scalar-field order 5 (the spec fixes no order)
the hashed scalar is not in `[0, field order)` — the code never reduces
it; reduction happens only implicitly when a group element is scaled. -/
theorem attrHash_exceeds_field_order :
    GoodDigest digestBad
    ∧ hashHiddenAttributes digestBad [((), true)] = [attrHash digestBad ()]
    ∧ attrHash digestBad () = 6
    ∧ ¬(attrHash digestBad () < 5) :=
  ⟨digestBad_good, by decide, by decide, by decide⟩

/-- C7.  After any completed `request_id` with blinding scalar `t`,
`unbind_sig` on the stored session state maps `(sig1, sig2)` to exactly
`(sig1, sig2 - sig1·t)`: the first component unchanged, only the second
adjusted. -/
theorem unbindSig_subtracts_blinding {o : ℕ} {α β : Type} (pk : PubKey o)
    (digest : α → List ℕ) (chal : ZMod o → ZMod o → β → ℤ) (t : ℤ)
    (rand : ℕ → ℤ) (attrs : List (α × Bool)) (data : β)
    (req : Request o α) (st : Client o) (s1 s2 : ZMod o)
    (h : requestId pk digest chal t rand attrs data = some (req, st)) :
    unbindSig st (s1, s2) = some (s1, s2 - s1 * (t : ZMod o)) := by
  obtain ⟨hst, -, -⟩ := requestId_some_shape pk digest chal t rand attrs data req st h
  rw [hst]
  rfl

/-- Witness for C7 at a concrete session. -/
theorem unbindSig_subtracts_blinding_witness :
    requestId pkEx digestEx chalEx 3 randEx [((4:ℕ), true)] 0 = some (req0, st0)
    ∧ unbindSig st0 (2, 3) = some (2, 3 - 2 * ((3 : ℤ) : ZMod 7)) :=
  ⟨rfl, unbindSig_subtracts_blinding pkEx digestEx chalEx 3 randEx
    [((4:ℕ), true)] 0 req0 st0 2 3 rfl⟩

/-- C8.  On a freshly constructed client (no `request_id` call, so no
blinding scalar was ever generated), `unbind_sig` fails fast — it never
returns a result and never proceeds with a default `t`. -/
theorem unbindSig_before_request_fails {o : ℕ} (pk : PubKey o)
    (sig : ZMod o × ZMod o) : unbindSig (mkClient pk) sig = none := rfl

/-- C9.  `create_zkp` (and hence `request_id`) completes exactly when the
hidden attributes lead the vector; any plain attribute in front of a
hidden one makes the V-loop index the randomness list out of range and
abort before any request is produced.  The last conjunct ties
`hiddenLeading` to the literal prefix decomposition. -/
theorem createZkp_completes_iff_hidden_leading {o : ℕ} {α β : Type}
    (pk : PubKey o) (digest : α → List ℕ) (chal : ZMod o → ZMod o → β → ℤ)
    (t : ℤ) (rand : ℕ → ℤ) (attrs : List (α × Bool)) (C : ZMod o) (data : β) :
    ((createZkp pk rand chal t attrs (hashHiddenAttributes digest attrs) C data).isSome
        = hiddenLeading attrs)
    ∧ ((requestId pk digest chal t rand attrs data).isSome = hiddenLeading attrs)
    ∧ (hiddenLeading attrs = true ↔ ∃ hpart ppart, attrs = hpart ++ ppart
        ∧ (∀ a ∈ hpart, a.2 = true) ∧ (∀ a ∈ ppart, a.2 = false)) :=
  ⟨createZkp_isSome_eq pk digest chal t rand attrs C data,
    requestId_isSome_eq pk digest chal t rand attrs data,
    hiddenLeading_iff_decomp attrs⟩

/-- C10.  `verify` reads only the raw byte value of each attribute entry:
two attribute vectors with identical values but arbitrarily different
hidden flags verify identically. -/
theorem verify_ignores_hidden_flags {o : ℕ} {α : Type} (cl : Client o)
    (digest : α → List ℕ) (sig : ZMod o × ZMod o)
    (attrs1 attrs2 : List (α × Bool))
    (h : attrs1.map Prod.fst = attrs2.map Prod.fst) :
    verify cl digest sig attrs1 = verify cl digest sig attrs2 := by
  rw [verify, verify, verifyAcc_map_fst cl.idpPk digest attrs1 attrs2 0 cl.idpPk.X h]

/-- Witness for C10 with concrete flag-flipped vectors. -/
theorem verify_ignores_hidden_flags_witness :
    [((3:ℕ), true)].map Prod.fst = [((3:ℕ), false)].map Prod.fst
    ∧ verify (mkClient pkEx) digestEx (2, 3) [((3:ℕ), true)]
        = verify (mkClient pkEx) digestEx (2, 3) [((3:ℕ), false)] :=
  ⟨rfl, verify_ignores_hidden_flags (mkClient pkEx) digestEx (2, 3)
    [((3:ℕ), true)] [((3:ℕ), false)] rfl⟩

end SSO
